import Mathlib

/-!
Verification of the eBay search-results analyzer (scraper.py, text_analyzer.py).
The Python source is shallowly embedded: strings are Lean strings, decimal
prices are rationals, the external pieces (HTTP transport, the NLTK tokenizer
and stopword list) are parameters of the embedded functions.
-/

/-- The model of Python str.lower (ASCII letters). -/
def pyLower (s : String) : String := ⟨s.data.map Char.toLower⟩

/-- Membership in Python string.punctuation: ASCII codes 33-47, 58-64, 91-96, 123-126. -/
def isPyPunct (c : Char) : Bool :=
  (33 ≤ c.toNat && c.toNat ≤ 47) || (58 ≤ c.toNat && c.toNat ≤ 64) ||
  (91 ≤ c.toNat && c.toNat ≤ 96) || (123 ≤ c.toNat && c.toNat ≤ 126)

/-- The model of text.translate(str.maketrans('', '', string.punctuation)):
delete every punctuation character. -/
def stripPunct (s : String) : String := ⟨s.data.filter (fun c => !(isPyPunct c))⟩

/-- The model of Python str.strip(): drop whitespace from both ends. -/
def pyStrip (s : String) : String :=
  ⟨((s.data.dropWhile Char.isWhitespace).reverse.dropWhile Char.isWhitespace).reverse⟩

/-- The model of Python str.isalpha(): nonempty and all characters alphabetic. -/
def pyIsAlpha (s : String) : Bool := !s.data.isEmpty && s.data.all Char.isAlpha

/-- Helper for the whitespace split: accumulates the current word reversed. -/
def splitWSGo : List Char → List Char → List String
  | cur, [] => if cur.isEmpty then [] else [⟨cur.reverse⟩]
  | cur, c :: cs =>
    if c.isWhitespace then
      (if cur.isEmpty then splitWSGo [] cs else ⟨cur.reverse⟩ :: splitWSGo [] cs)
    else splitWSGo (c :: cur) cs

/-- The model of Python text.split() with no argument: split on whitespace runs,
producing no empty words (the fallback tokenizer of preprocess_text). -/
def pySplitWS (s : String) : List String := splitWSGo [] s.data

/-- Whether the first list is a prefix of the second (Boolean). -/
def charsStartWith : List Char → List Char → Bool
  | [], _ => true
  | _ :: _, [] => false
  | a :: as, b :: bs => a == b && charsStartWith as bs

/-- Whether the first list occurs as a contiguous run inside the second:
the model of the Python membership test on strings. -/
def charsContain (needle : List Char) : List Char → Bool
  | [] => needle.isEmpty
  | c :: t => charsStartWith needle (c :: t) || charsContain needle t

/-- The model of Python ''.join on a list of strings. -/
def pyJoin : List String → String
  | [] => ""
  | p :: ps => p ++ pyJoin ps

/-- The model of Python ' '.join on a list of strings. -/
def pySpaceJoin : List String → String
  | [] => ""
  | [t] => t
  | t :: ts => t ++ " " ++ pySpaceJoin ts

/-- Helper for pyTitle: the Boolean records whether the previous character was
alphabetic. -/
def pyTitleAux : Bool → List Char → List Char
  | _, [] => []
  | prevAlpha, c :: cs =>
    (if c.isAlpha then (if prevAlpha then c.toLower else c.toUpper) else c) ::
      pyTitleAux c.isAlpha cs

/-- The model of Python str.title(): a letter is uppercased when the previous
character is not a letter, lowercased otherwise. -/
def pyTitle (s : String) : String := ⟨pyTitleAux false s.data⟩

/-- The hardcoded fallback core stopword list of preprocess_text (the except
branch of the stopwords load). -/
def fallbackCoreStopwords : List String :=
  ["a", "an", "and", "are", "as", "at", "be", "by", "for",
   "from", "has", "he", "in", "is", "it", "its", "of", "on",
   "that", "the", "to", "was", "were", "will", "with"]

/-- The fixed domain-specific stopword list of preprocess_text
(custom_stopwords in the source). -/
def customStopwords : List String :=
  ["new", "brand", "lot", "free", "shipping", "sale", "sealed",
   "uk", "us", "box", "set", "edition", "complete", "original"]

/-- The embedding of preprocess_text from text_analyzer.py.  The word
tokenizer (NLTK word_tokenize or the whitespace fallback) and the base English
stopword list (NLTK data or the hardcoded fallback) are external resources,
passed as parameters; the lowering, punctuation removal, the union with the
domain stopwords and the final filter are translated from the source. -/
def preprocess_text (tok : String → List String) (baseStop : List String)
    (text : String) : List String :=
  let lowered := pyLower text
  let cleaned := stripPunct lowered
  let tokens := tok cleaned
  let stop_words := baseStop ++ customStopwords
  tokens.filter (fun token =>
    pyIsAlpha token && decide (token.length > 2) && !(stop_words.contains token))

/-- Occurrence count of a token in a token list (the specification-side
counting function). -/
def cnt (t : String) : List String → ℕ
  | [] => 0
  | s :: ss => (if s = t then 1 else 0) + cnt t ss

/-- One step of Counter building: increment the entry of the given key if
present (first occurrence), otherwise append a fresh entry with count 1.
This is the model of a Python dict update, which preserves insertion order. -/
def bump : List (String × ℕ) → String → List (String × ℕ)
  | [], t => [(t, 1)]
  | (k, c) :: rest, t =>
    if k = t then (k, c + 1) :: rest else (k, c) :: bump rest t

/-- Count stored under a key in the association list (0 when absent). -/
def getCnt : List (String × ℕ) → String → ℕ
  | [], _ => 0
  | (k, c) :: rest, t => if k = t then c else getCnt rest t

/-- The accumulator loop of Counter(tokens). -/
def counterGo : List (String × ℕ) → List String → List (String × ℕ)
  | acc, [] => acc
  | acc, t :: ts => counterGo (bump acc t) ts

/-- The embedding of Counter(tokens) as an association list in insertion
order of first appearance. -/
def counterList (tokens : List String) : List (String × ℕ) := counterGo [] tokens

/-- Specification-side: the distinct tokens of a list in order of first
appearance, given a list of already-seen keys. -/
def seenGo : List String → List String → List String
  | _, [] => []
  | seen, t :: ts =>
    if t ∈ seen then seenGo seen ts else t :: seenGo (seen ++ [t]) ts

/-- Specification-side: the distinct tokens of a list in order of first
appearance. -/
def seenOrder (tokens : List String) : List String := seenGo [] tokens

/-- The comparison used by sorted(..., key=lambda x: x[1], reverse=True):
an entry goes before another when its count is at least as large. -/
def countGE (p q : String × ℕ) : Prop := q.2 ≤ p.2

instance : DecidableRel countGE := fun p q => Nat.decLe q.2 p.2

instance : IsTotal (String × ℕ) countGE := ⟨fun a b => Nat.le_total b.2 a.2⟩

instance : IsTrans (String × ℕ) countGE := ⟨fun _ _ _ hab hbc => le_trans hbc hab⟩

/-- The model of Python sorted(items, key=lambda x: x[1], reverse=True):
the stable descending-by-count sort, realized as insertion sort whose
insertion places an element before the first one of not-larger count. -/
def sortByCountDesc (l : List (String × ℕ)) : List (String × ℕ) :=
  List.insertionSort countGE l

/-- The embedding of analyze_keywords from text_analyzer.py: join the titles
with spaces, preprocess, count with Counter, and sort descending by count
(Python dicts preserve the sorted order, so the result is the sorted
association list). -/
def analyze_keywords (tok : String → List String) (baseStop : List String)
    (titles : List String) : List (String × ℕ) :=
  let all_text := pySpaceJoin titles
  let tokens := preprocess_text tok baseStop all_text
  sortByCountDesc (counterList tokens)

/-- The keyword loop of suggest_title from text_analyzer.py: walk the sorted
keywords carrying the parts list and current_length, append ", " and the
title-cased keyword while the addition fits, stop at the first overflow. -/
def buildGo (maxLen : ℕ) : List (String × ℕ) → List String → ℕ → List String × ℕ
  | [], parts, curLen => (parts, curLen)
  | (kw, _) :: rest, parts, curLen =>
    let wordLength := kw.length
    let spaceNeeded : ℕ := if parts.isEmpty then 0 else 1
    let commaNeeded : ℕ := if parts.isEmpty then 0 else 1
    if curLen + (wordLength + spaceNeeded + commaNeeded) ≤ maxLen then
      if parts.isEmpty then
        buildGo maxLen rest (parts ++ [pyTitle kw]) (curLen + wordLength)
      else
        buildGo maxLen rest (parts ++ [", ", pyTitle kw]) (curLen + 2 + wordLength)
    else (parts, curLen)

/-- The keyword phase of suggest_title: take the top 10 entries, re-sort them
descending by count (Python sorted, stable), run the greedy loop, join. -/
def keywordTitle (keyword_freq : List (String × ℕ)) (max_length : ℕ) : String :=
  let top_keywords := keyword_freq.take 10
  let sorted_keywords := sortByCountDesc top_keywords
  pyJoin (buildGo max_length sorted_keywords [] 0).1

/-- The fixed suffix list of suggest_title. -/
def common_suffixes : List String := [" - New", " - Lot", " - Sale"]

/-- The suffix loop of suggest_title: append the first suffix that fits
within max_length, leave the title unchanged when none fits. -/
def addSuffix (title : String) (maxLen : ℕ) : List String → String
  | [] => title
  | s :: rest => if title.length + s.length ≤ maxLen then title ++ s else addSuffix title maxLen rest

/-- The embedding of suggest_title from text_analyzer.py.  The fallback
string of the except branch is never produced because the embedded
computation is total. -/
def suggest_title (keyword_freq : List (String × ℕ)) (max_length : ℕ) : String :=
  let title := keywordTitle keyword_freq max_length
  if title.length < max_length - 15 then addSuffix title max_length common_suffixes
  else title

/-- The fixed fallback string of the except branch of suggest_title. -/
def fallbackTitle : String := "Could not generate title suggestion"

/-- Floor of a rational, through flooring integer division. -/
def ratFloor (q : ℚ) : ℤ := q.num.fdiv q.den

/-- Round a rational to the nearest integer, ties to the even neighbour
(the model of Python round on a number). -/
def roundHalfEven (q : ℚ) : ℤ :=
  let f := ratFloor q
  if q - f < 1 / 2 then f
  else if (1 : ℚ) / 2 < q - f then f + 1
  else if 2 ∣ f then f else f + 1

/-- The model of Python round(x, 2): round to 2 fractional digits. -/
def round2 (q : ℚ) : ℚ := (roundHalfEven (q * 100) : ℚ) / 100

/-- The model of Python sorted on numbers: ascending insertion sort. -/
def pySortedAsc (l : List ℚ) : List ℚ := List.insertionSort (fun a b => a ≤ b) l

/-- The model of statistics.mean: sum divided by length. -/
def pyMean (l : List ℚ) : ℚ := l.sum / (l.length : ℚ)

/-- The model of statistics.median: middle of the sorted list for odd length,
average of the two middle values for even length.  The empty case is never
reached by calculate_price_stats (it is guarded). -/
def pyMedian (l : List ℚ) : ℚ :=
  let s := pySortedAsc l
  let n := s.length
  if n % 2 = 1 then s.getD (n / 2) 0
  else (s.getD (n / 2 - 1) 0 + s.getD (n / 2) 0) / 2

/-- The model of Python min over a list (the empty case is guarded away). -/
def pyMinList : List ℚ → ℚ
  | [] => 0
  | x :: xs => xs.foldl min x

/-- The model of Python max over a list (the empty case is guarded away). -/
def pyMaxList : List ℚ → ℚ
  | [] => 0
  | x :: xs => xs.foldl max x

/-- The record returned by calculate_price_stats. -/
structure PriceStats where
  average : ℚ
  median : ℚ
  min : ℚ
  max : ℚ
deriving DecidableEq, Repr

/-- The embedding of calculate_price_stats from text_analyzer.py: drop the
absent (None) prices, return all zeros for an empty remainder, otherwise the
mean, median, min and max each rounded to 2 fractional digits. -/
def calculate_price_stats (prices : List (Option ℚ)) : PriceStats :=
  let valid_prices := prices.filterMap id
  if valid_prices.isEmpty then ⟨0, 0, 0, 0⟩
  else ⟨round2 (pyMean valid_prices), round2 (pyMedian valid_prices),
        round2 (pyMinList valid_prices), round2 (pyMaxList valid_prices)⟩

/-- Whether a character can occur in the body of the price regex
[\d,]+\.\d2: a digit or a comma. -/
def isPriceChar (c : Char) : Bool := c.isDigit || c == ','

/-- One attempted regex match of [\d,]+\.\d2 at the start of the character
list: the greedy digits-and-commas run, then a dot, then two digits.  Because
a dot is not a run character, backtracking the greedy run can never succeed,
so checking only the maximal run is exact. -/
def matchAt (cs : List Char) : Option (List Char × Char × Char) :=
  let run := cs.takeWhile isPriceChar
  if run.isEmpty then none
  else
    match cs.dropWhile isPriceChar with
    | '.' :: d1 :: d2 :: _ => if d1.isDigit && d2.isDigit then some (run, d1, d2) else none
    | _ => none

/-- The model of re.search with pattern [\d,]+\.\d2: try every start
position left to right, return the first match. -/
def searchPrice : List Char → Option (List Char × Char × Char)
  | [] => none
  | c :: cs =>
    match matchAt (c :: cs) with
    | some m => some m
    | none => searchPrice cs

/-- Value of a digit list read in base 10 (non-digits would contribute
garbage but are filtered before use). -/
def digitsToNat (ds : List Char) : ℕ := ds.foldl (fun acc c => 10 * acc + (c.toNat - 48)) 0

/-- Value of a regex match: strip the commas, read the integer digits, then
append the two decimal digits; the model of float(match.replace(',', '')). -/
def matchValue : List Char × Char × Char → ℚ
  | (run, d1, d2) =>
    ((digitsToNat (run.filter (fun c => c ≠ ',')) * 100 +
      (d1.toNat - 48) * 10 + (d2.toNat - 48) : ℕ) : ℚ) / 100

/-- The embedding of extract_price from scraper.py.  The element is modelled
by its optional text; a missing element yields None, otherwise the stripped
text is searched for the leftmost [\d,]+\.\d2 match. -/
def extract_price (price_elem : Option String) : Option ℚ :=
  match price_elem with
  | none => none
  | some s => (searchPrice (pyStrip s).data).map matchValue

/-- One item wrapper of the results page, modelled by the optional text of
its title sub-node and the optional text of its price sub-node. -/
structure Item where
  titleElem : Option String
  priceElem : Option String

/-- The placeholder phrase of promotional tiles. -/
def shopPlaceholder : String := "Shop on eBay"

/-- Whether the extraction loop keeps an item: its title sub-node exists and
its text does not contain the placeholder phrase. -/
def keepItem (it : Item) : Bool :=
  match it.titleElem with
  | none => false
  | some t => !(charsContain shopPlaceholder.data t.data)

/-- The extraction loop of scrape_ebay_results: per kept item, append the
stripped title to the titles and the extracted price to the prices in the
same iteration. -/
def extractLoop : List Item → List String × List (Option ℚ)
  | [] => ([], [])
  | it :: rest =>
    let (ts, ps) := extractLoop rest
    match it.titleElem with
    | some t =>
      if charsContain shopPlaceholder.data t.data then (ts, ps)
      else (pyStrip t :: ts, extract_price it.priceElem :: ps)
    | none => (ts, ps)

/-- The extraction step of scrape_ebay_results: the loop followed by the
truncation of both lists to the first 60 entries. -/
def scrapeExtract (items : List Item) : List String × List (Option ℚ) :=
  let (ts, ps) := extractLoop items
  (ts.take 60, ps.take 60)

/-- The outcome of one fetch attempt: a parsed page (its item wrappers), a
transport-level failure (requests.RequestException), or a failure while
processing the page (any other exception inside the try body). -/
inductive AttemptOutcome where
  | success (items : List Item)
  | requestError (msg : String)
  | processError (msg : String)

/-- The retry loop of scrape_ebay_results over the remaining attempt
indices: a success returns the extracted lists, a transport failure on the
last attempt raises the terminal fetch error carrying the attempt count and
the last underlying message, an earlier transport failure continues, and a
processing failure raises immediately. -/
def fetchGo (f : ℕ → AttemptOutcome) (maxRetries : ℕ) :
    List ℕ → Except String (List String × List (Option ℚ)) × ℕ
  | [] => (Except.error "exhausted attempts", 0)
  | a :: rest =>
    match f a with
    | AttemptOutcome.success items => (Except.ok (scrapeExtract items), a + 1)
    | AttemptOutcome.requestError m =>
      if a = maxRetries - 1 then
        (Except.error ("Failed to fetch eBay results after " ++ toString maxRetries ++
          " attempts: " ++ m), a + 1)
      else fetchGo f maxRetries rest
    | AttemptOutcome.processError m =>
      (Except.error ("Error processing eBay page: " ++ m), a + 1)

/-- The embedding of scrape_ebay_results from scraper.py: up to 3 attempts,
driven by the transport outcome function; the second component is the number
of attempts performed. -/
def scrape_ebay_results (f : ℕ → AttemptOutcome) :
    Except String (List String × List (Option ℚ)) × ℕ :=
  fetchGo f 3 (List.range 3)

/-- The concrete transport schedule of the retry witness: two transport
failures, then a success with an empty page. -/
def retryWitnessOutcomes : ℕ → AttemptOutcome := fun n =>
  match n with
  | 0 => AttemptOutcome.requestError "boom1"
  | 1 => AttemptOutcome.requestError "boom2"
  | _ => AttemptOutcome.success []

/-- Specification-side reading of the price regex: the text decomposes into
some prefix, a nonempty run of digits and commas, a dot, two digits, and a
remainder. -/
def hasPricePattern (cs : List Char) : Prop :=
  ∃ pre run d1 d2 post, cs = pre ++ run ++ '.' :: d1 :: d2 :: post ∧ run ≠ [] ∧
    (∀ c ∈ run, isPriceChar c = true) ∧ d1.isDigit = true ∧ d2.isDigit = true

-- basic evaluations of the embedded functions
example : pySplitWS "  anime dvd  collection " = ["anime", "dvd", "collection"] := by decide
example : preprocess_text pySplitWS fallbackCoreStopwords "Anime DVD, the new collection!" =
    ["anime", "dvd", "collection"] := by decide
example : counterList ["a", "b", "a"] = [("a", 2), ("b", 1)] := by decide
example : sortByCountDesc [("a", 1), ("b", 2), ("c", 1)] = [("b", 2), ("a", 1), ("c", 1)] := by decide
example : pyTitle "anime" = "Anime" := by decide
example : suggest_title [] 80 = " - New" := by decide
example : suggest_title [("anime", 3), ("dvd", 2)] 80 = "Anime, Dvd - New" := by decide
example : extract_price (some "Free shipping") = none := by decide
example : searchPrice (pyStrip "$12,345.67").data =
    some (['1', '2', ',', '3', '4', '5'], '6', '7') := by decide
example : searchPrice (pyStrip "$10.00 to $20.00").data =
    some (['1', '0'], '0', '0') := by decide

/-- Evaluation helper: an extract_price value from a computed search result
and a computed numerator. -/
theorem extract_price_eval (s : String) (run : List Char) (d1 d2 : Char) (n : ℕ)
    (h : searchPrice (pyStrip s).data = some (run, d1, d2))
    (hn : digitsToNat (run.filter (fun c => c ≠ ',')) * 100 +
      (d1.toNat - 48) * 10 + (d2.toNat - 48) = n) :
    extract_price (some s) = some ((n : ℚ) / 100) := by
  subst hn
  simp [extract_price, h, matchValue]

example : extract_price (some "$12,345.67") = some (1234567 / 100 : ℚ) := by
  have := extract_price_eval "$12,345.67" ['1', '2', ',', '3', '4', '5'] '6' '7' 1234567
    (by decide) (by decide)
  rw [this]
  norm_num

/-- The floor model agrees with casts of integers. -/
theorem ratFloor_intCast (n : ℤ) : ratFloor (n : ℚ) = n := by
  simp [ratFloor, Rat.num_intCast, Rat.den_intCast, Int.fdiv_one]

/-- Rounding an integer-valued rational returns it unchanged. -/
theorem roundHalfEven_intCast (n : ℤ) : roundHalfEven (n : ℚ) = n := by
  simp only [roundHalfEven, ratFloor_intCast]
  norm_num

/-- Rounding to 2 digits is evaluated through an integer multiple of 1/100. -/
theorem round2_eval (q : ℚ) (n : ℤ) (h : q * 100 = (n : ℚ)) : round2 q = (n : ℚ) / 100 := by
  simp only [round2, h, roundHalfEven_intCast]

example : round2 20 = 20 := by
  have := round2_eval 20 2000 (by norm_num)
  rw [this]; norm_num

/-- Title casing maps characters one to one. -/
theorem pyTitleAux_length (b : Bool) (cs : List Char) : (pyTitleAux b cs).length = cs.length := by
  induction cs generalizing b with
  | nil => rfl
  | cons c cs ih => simp [pyTitleAux, ih]

/-- Title casing preserves the length of a string. -/
theorem pyTitle_length (s : String) : (pyTitle s).length = s.length := by
  show (pyTitleAux false s.data).length = s.data.length
  exact pyTitleAux_length false s.data

/-- The length of a joined list of parts adds over list append. -/
theorem pyJoin_length_append (l1 l2 : List String) :
    (pyJoin (l1 ++ l2)).length = (pyJoin l1).length + (pyJoin l2).length := by
  induction l1 with
  | nil => simp [pyJoin]
  | cons p ps ih => simp [pyJoin, String.length_append, ih]; omega

/-- Unfolding equation of the greedy loop on the empty keyword list. -/
theorem buildGo_nil (maxLen : ℕ) (parts : List String) (curLen : ℕ) :
    buildGo maxLen [] parts curLen = (parts, curLen) := rfl

/-- Unfolding equation of one step of the greedy loop. -/
theorem buildGo_cons (maxLen : ℕ) (kw : String) (f : ℕ) (rest : List (String × ℕ))
    (parts : List String) (curLen : ℕ) :
    buildGo maxLen ((kw, f) :: rest) parts curLen =
    if curLen + (kw.length + (if parts.isEmpty then 0 else 1) +
        (if parts.isEmpty then 0 else 1)) ≤ maxLen then
      (if parts.isEmpty then buildGo maxLen rest (parts ++ [pyTitle kw]) (curLen + kw.length)
       else buildGo maxLen rest (parts ++ [", ", pyTitle kw]) (curLen + 2 + kw.length))
    else (parts, curLen) := rfl

/-- The greedy loop keeps current_length equal to the length of the joined
parts and never lets it exceed the budget. -/
theorem buildGo_invariant (maxLen : ℕ) (kws : List (String × ℕ)) :
    ∀ parts curLen, (pyJoin parts).length = curLen → curLen ≤ maxLen →
    (pyJoin (buildGo maxLen kws parts curLen).1).length = (buildGo maxLen kws parts curLen).2 ∧
    (buildGo maxLen kws parts curLen).2 ≤ maxLen := by
  induction kws with
  | nil => intro parts curLen h1 h2; rw [buildGo_nil]; exact ⟨h1, h2⟩
  | cons kf rest ih =>
    obtain ⟨kw, f⟩ := kf
    intro parts curLen h1 h2
    rw [buildGo_cons]
    by_cases hfit : curLen + (kw.length + (if parts.isEmpty then 0 else 1) +
        (if parts.isEmpty then 0 else 1)) ≤ maxLen
    · rw [if_pos hfit]
      by_cases hp : parts.isEmpty
      · rw [if_pos hp]
        apply ih
        · rw [pyJoin_length_append, h1]
          have h6 : (pyJoin [pyTitle kw]).length = kw.length := by
            show (pyTitle kw ++ "").length = _
            rw [String.length_append, pyTitle_length]
            rfl
          rw [h6]
        · rw [if_pos hp] at hfit
          omega
      · rw [if_neg hp]
        apply ih
        · rw [pyJoin_length_append, h1]
          have h6 : (pyJoin [", ", pyTitle kw]).length = 2 + kw.length := by
            show ((", " : String) ++ (pyTitle kw ++ "")).length = _
            rw [String.length_append, String.length_append, pyTitle_length]
            have hc : (", " : String).length = 2 := rfl
            have he : ("" : String).length = 0 := rfl
            omega
          rw [h6]
          omega
        · rw [if_neg hp] at hfit
          omega
    · rw [if_neg hfit]
      exact ⟨h1, h2⟩

/-- The keyword phase never exceeds the budget. -/
theorem keywordTitle_length_le (freq : List (String × ℕ)) (maxLen : ℕ) :
    (keywordTitle freq maxLen).length ≤ maxLen := by
  have h := buildGo_invariant maxLen (sortByCountDesc (freq.take 10)) [] 0 rfl (Nat.zero_le _)
  show (pyJoin (buildGo maxLen (sortByCountDesc (freq.take 10)) [] 0).1).length ≤ maxLen
  rw [h.1]
  exact h.2

/-- The suffix loop preserves the budget bound. -/
theorem addSuffix_length_le (title : String) (maxLen : ℕ) (sfx : List String)
    (h : title.length ≤ maxLen) : (addSuffix title maxLen sfx).length ≤ maxLen := by
  induction sfx with
  | nil => exact h
  | cons s rest ih =>
    show (if title.length + s.length ≤ maxLen then title ++ s
      else addSuffix title maxLen rest).length ≤ maxLen
    by_cases hfits : title.length + s.length ≤ maxLen
    · rw [if_pos hfits, String.length_append]
      exact hfits
    · rw [if_neg hfits]
      exact ih

/-- C3: the string returned by suggest_title never exceeds max_length; the
greedy loop returns immediately at the first keyword whose addition together
with its separator would overflow the budget; and the suffix loop keeps the
bound whenever the incoming title honours it. -/
theorem suggest_title_length_bounded (freq : List (String × ℕ)) (maxLen : ℕ) :
    (suggest_title freq maxLen).length ≤ maxLen ∧
    (∀ (kw : String) (f : ℕ) (rest : List (String × ℕ)) (parts : List String) (curLen : ℕ),
      maxLen < curLen + (kw.length + (if parts.isEmpty then 0 else 1) +
        (if parts.isEmpty then 0 else 1)) →
      buildGo maxLen ((kw, f) :: rest) parts curLen = (parts, curLen)) ∧
    (∀ (t : String) (sfx : List String), t.length ≤ maxLen →
      (addSuffix t maxLen sfx).length ≤ maxLen) := by
  refine ⟨?_, ?_, ?_⟩
  · rw [suggest_title]
    by_cases hc : (keywordTitle freq maxLen).length < maxLen - 15
    · rw [if_pos hc]
      exact addSuffix_length_le _ _ _ (keywordTitle_length_le freq maxLen)
    · rw [if_neg hc]
      exact keywordTitle_length_le freq maxLen
  · intro kw f rest parts curLen hover
    rw [buildGo_cons, if_neg (not_le.mpr hover)]
  · intro t sfx h
    exact addSuffix_length_le t maxLen sfx h

/-- Closed witness for suggest_title_length_bounded at concrete inputs. -/
theorem suggest_title_length_bounded_witness :
    (suggest_title [("anime", 3), ("dvd", 2)] 80).length ≤ 80 ∧
    buildGo 3 [("anime", 1)] [] 0 = ([], 0) ∧
    (addSuffix "Anime" 80 common_suffixes).length ≤ 80 :=
  ⟨(suggest_title_length_bounded [("anime", 3), ("dvd", 2)] 80).1,
   (suggest_title_length_bounded [] 3).2.1 "anime" 1 [] [] 0 (by decide),
   (suggest_title_length_bounded [] 80).2.2 "Anime" common_suffixes (by decide)⟩

/-- C1 counterexample: on the empty ranking suggest_title with the default
budget of 80 returns " - New", not the fixed fallback string of the except
branch. -/
theorem suggest_title_empty_not_fallback :
    suggest_title [] 80 = " - New" ∧ " - New" ≠ fallbackTitle := by
  constructor
  · decide
  · decide

/-- C1 amended: on the empty ranking the keyword phase produces the empty
string, the suffix branch then appends the first suffix, so suggest_title
returns " - New"; the fallback string is produced only by the except branch
on an internal error, which the embedded total computation never takes. -/
theorem suggest_title_empty_amended :
    suggest_title [] 80 = keywordTitle [] 80 ++ " - New" ∧ keywordTitle [] 80 = "" := by
  constructor
  · decide
  · decide

/-- C6 amended: the suffix branch is taken exactly when the keyword-phase
title leaves strictly more than 15 unused characters, and then the first
suffix " - New" always fits and is appended; otherwise (15 or fewer unused
characters) the title is returned unchanged. -/
theorem suggest_title_suffix_rule (freq : List (String × ℕ)) (maxLen : ℕ) :
    ((keywordTitle freq maxLen).length < maxLen - 15 →
      suggest_title freq maxLen = keywordTitle freq maxLen ++ " - New") ∧
    (¬ (keywordTitle freq maxLen).length < maxLen - 15 →
      suggest_title freq maxLen = keywordTitle freq maxLen) := by
  constructor
  · intro h
    have hfits : (keywordTitle freq maxLen).length + (" - New" : String).length ≤ maxLen := by
      have : (" - New" : String).length = 6 := by decide
      omega
    rw [suggest_title, if_pos h, common_suffixes, addSuffix, if_pos hfits]
  · intro h
    rw [suggest_title, if_neg h]

/-- Closed witness for suggest_title_suffix_rule: a 5-character keyword
title leaves more than 15 of 80 characters, so " - New" is appended; a
65-character keyword title leaves exactly 15, so nothing is appended. -/
theorem suggest_title_suffix_rule_witness :
    suggest_title [("anime", 3)] 80 = keywordTitle [("anime", 3)] 80 ++ " - New" ∧
    suggest_title [(String.mk (List.replicate 65 'a'), 1)] 80 =
      keywordTitle [(String.mk (List.replicate 65 'a'), 1)] 80 :=
  ⟨(suggest_title_suffix_rule [("anime", 3)] 80).1 (by decide),
   (suggest_title_suffix_rule [(String.mk (List.replicate 65 'a'), 1)] 80).2 (by decide)⟩

/-- The extraction loop is the pair of per-item projections of the kept
items: both lists are built from the same filtered item list, in document
order. -/
theorem extractLoop_eq (items : List Item) :
    extractLoop items =
      ((items.filter keepItem).map (fun it => pyStrip (it.titleElem.getD "")),
       (items.filter keepItem).map (fun it => extract_price it.priceElem)) := by
  induction items with
  | nil => rfl
  | cons it rest ih =>
    cases h : it.titleElem with
    | none =>
      have hk : keepItem it = false := by simp [keepItem, h]
      simp [extractLoop, h, hk, ih]
    | some t =>
      by_cases hc : charsContain shopPlaceholder.data t.data
      · have hk : keepItem it = false := by simp [keepItem, h, hc]
        simp [extractLoop, h, hc, hk, ih]
      · have hk : keepItem it = true := by simp [keepItem, h, hc]
        simp [extractLoop, h, hc, hk, ih]

/-- C2: for every input item list the extraction step returns as many titles
as price slots, and the two lists are positionally aligned: they are the 60
first stripped titles, respectively extracted prices, of the same filtered
item list, in the same order. -/
theorem scrape_extract_aligned (items : List Item) :
    (scrapeExtract items).1.length = (scrapeExtract items).2.length ∧
    (scrapeExtract items).1 =
      ((items.filter keepItem).map (fun it => pyStrip (it.titleElem.getD ""))).take 60 ∧
    (scrapeExtract items).2 =
      ((items.filter keepItem).map (fun it => extract_price it.priceElem)).take 60 := by
  have h := extractLoop_eq items
  refine ⟨?_, ?_, ?_⟩
  · show ((extractLoop items).1.take 60).length = ((extractLoop items).2.take 60).length
    rw [h]
    simp [List.length_take]
  · show (extractLoop items).1.take 60 = _
    rw [h]
  · show (extractLoop items).2.take 60 = _
    rw [h]

/-- C9: the fetch wrapper performs at most 3 attempts; when the first two
attempts fail at transport level and the third succeeds it returns the
extracted result after exactly 3 attempts; when all 3 fail at transport
level it fails with the message carrying the attempt count and the last
underlying error text. -/
theorem scrape_retry_spec :
    (∀ f, (scrape_ebay_results f).2 ≤ 3) ∧
    (∀ f items m1 m2, f 0 = AttemptOutcome.requestError m1 →
      f 1 = AttemptOutcome.requestError m2 → f 2 = AttemptOutcome.success items →
      scrape_ebay_results f = (Except.ok (scrapeExtract items), 3)) ∧
    (∀ f m1 m2 m3, f 0 = AttemptOutcome.requestError m1 →
      f 1 = AttemptOutcome.requestError m2 → f 2 = AttemptOutcome.requestError m3 →
      scrape_ebay_results f =
        (Except.error ("Failed to fetch eBay results after 3 attempts: " ++ m3), 3)) := by
  have hmsg : ("Failed to fetch eBay results after " ++ toString (3 : ℕ) ++ " attempts: ")
      = "Failed to fetch eBay results after 3 attempts: " := rfl
  refine ⟨?_, ?_, ?_⟩
  · intro f
    show (fetchGo f 3 [0, 1, 2]).2 ≤ 3
    rcases h0 : f 0 with items0 | m0 | m0 <;> simp [fetchGo, h0]
    rcases h1 : f 1 with items1 | m1 | m1 <;> simp [fetchGo, h1]
    rcases h2 : f 2 with items2 | m2 | m2 <;> simp [fetchGo, h2]
  · intro f items m1 m2 h0 h1 h2
    show fetchGo f 3 [0, 1, 2] = (Except.ok (scrapeExtract items), 3)
    simp [fetchGo, h0, h1, h2]
  · intro f m1 m2 m3 h0 h1 h2
    show fetchGo f 3 [0, 1, 2] =
      (Except.error ("Failed to fetch eBay results after 3 attempts: " ++ m3), 3)
    simp [fetchGo, h0, h1, h2, hmsg]

/-- Closed witness for scrape_retry_spec on the concrete schedule. -/
theorem scrape_retry_spec_witness :
    scrape_ebay_results retryWitnessOutcomes = (Except.ok (scrapeExtract []), 3) ∧
    (scrape_ebay_results retryWitnessOutcomes).2 ≤ 3 :=
  ⟨scrape_retry_spec.2.1 retryWitnessOutcomes [] "boom1" "boom2" rfl rfl rfl,
   scrape_retry_spec.1 retryWitnessOutcomes⟩

/-- C6 counterexample: with a single 65-character keyword and the default
budget of 80, the keyword phase uses 65 characters, leaving exactly 15
unused, and the first suffix would fit; yet suggest_title returns the title
unchanged, because the source requires strictly more than 15 unused
characters before appending a suffix. -/
theorem suggest_title_fifteen_boundary_cex :
    suggest_title [(String.mk (List.replicate 65 'a'), 1)] 80 =
      keywordTitle [(String.mk (List.replicate 65 'a'), 1)] 80 ∧
    (keywordTitle [(String.mk (List.replicate 65 'a'), 1)] 80).length = 65 ∧
    80 - 65 = 15 ∧
    65 + (" - New" : String).length ≤ 80 ∧
    (suggest_title [(String.mk (List.replicate 65 'a'), 1)] 80).length = 65 := by
  refine ⟨by decide, by decide, by decide, by decide, by decide⟩

/-- A run of characters satisfying the predicate followed by a stopper is
taken whole by takeWhile. -/
theorem takeWhile_all_append (p : Char → Bool) (l1 l2 : List Char)
    (hall : ∀ c ∈ l1, p c = true) (hstop : ∀ d, l2 = d :: l2.tail → p d = false) :
    (l1 ++ l2).takeWhile p = l1 ∧ (l1 ++ l2).dropWhile p = l2 := by
  induction l1 with
  | nil =>
    cases l2 with
    | nil => exact ⟨rfl, rfl⟩
    | cons d t =>
      have hd : p d = false := hstop d rfl
      constructor
      · simp [List.takeWhile, hd]
      · simp [List.dropWhile, hd]
  | cons a as ih =>
    have ha : p a = true := hall a (List.mem_cons_self a as)
    have ih' := ih (fun c hc => hall c (List.mem_cons_of_mem a hc))
    constructor
    · simp [List.takeWhile, ha, ih'.1]
    · simp [List.dropWhile, ha, ih'.2]

/-- matchAt succeeds on any list that starts with a full pattern. -/
theorem matchAt_of_pattern (run post : List Char) (d1 d2 : Char) (hne : run ≠ [])
    (hrun : ∀ c ∈ run, isPriceChar c = true) (h1 : d1.isDigit = true) (h2 : d2.isDigit = true) :
    matchAt (run ++ '.' :: d1 :: d2 :: post) = some (run, d1, d2) := by
  have hstop : ∀ d, ('.' :: d1 :: d2 :: post) = d :: ('.' :: d1 :: d2 :: post).tail →
      isPriceChar d = false := by
    intro d hd
    cases hd
    decide
  have hsplit := takeWhile_all_append isPriceChar run ('.' :: d1 :: d2 :: post) hrun hstop
  have hie : run.isEmpty = false := by
    cases run with
    | nil => exact absurd rfl hne
    | cons a as => rfl
  rw [matchAt]
  rw [hsplit.1, hsplit.2, hie]
  simp [h1, h2]

/-- A successful matchAt yields the pattern decomposition with empty prefix. -/
theorem matchAt_some_decomp (cs run : List Char) (d1 d2 : Char)
    (h : matchAt cs = some (run, d1, d2)) :
    ∃ post, cs = run ++ '.' :: d1 :: d2 :: post ∧ run ≠ [] ∧
      (∀ c ∈ run, isPriceChar c = true) ∧ d1.isDigit = true ∧ d2.isDigit = true := by
  rw [matchAt] at h
  by_cases hie : (cs.takeWhile isPriceChar).isEmpty
  · rw [if_pos hie] at h
    cases h
  · rw [if_neg hie] at h
    split at h
    · next e1 e2 tail heq =>
      by_cases hdig : (e1.isDigit && e2.isDigit) = true
      · rw [if_pos hdig] at h
        injection h with h'
        have hr : cs.takeWhile isPriceChar = run := congrArg Prod.fst h'
        have hd1 : e1 = d1 := congrArg (fun p => p.2.1) h'
        have hd2 : e2 = d2 := congrArg (fun p => p.2.2) h'
        subst hd1
        subst hd2
        refine ⟨tail, ?_, ?_, ?_, ?_, ?_⟩
        · conv_lhs => rw [← List.takeWhile_append_dropWhile isPriceChar cs]
          rw [heq, hr]
        · intro hrn
          apply hie
          rw [hr, hrn]
          rfl
        · intro c hc
          rw [← hr] at hc
          exact List.mem_takeWhile_imp hc
        · exact ((Bool.and_eq_true _ _).mp hdig).1
        · exact ((Bool.and_eq_true _ _).mp hdig).2
      · rw [if_neg hdig] at h
        cases h
    · cases h

/-- searchPrice succeeds whenever some suffix of the text carries a match. -/
theorem searchPrice_isSome_of_suffix (pre suf : List Char) (hne : suf ≠ [])
    (hs : (matchAt suf).isSome = true) : (searchPrice (pre ++ suf)).isSome = true := by
  induction pre with
  | nil =>
    rw [List.nil_append]
    cases suf with
    | nil => exact absurd rfl hne
    | cons c cs =>
      rw [searchPrice]
      rcases hm : matchAt (c :: cs) with _ | m
      · rw [hm] at hs
        cases hs
      · rfl
  | cons c pre' ih =>
    rw [List.cons_append, searchPrice]
    rcases hm : matchAt (c :: (pre' ++ suf)) with _ | m
    · exact ih
    · rfl

/-- A successful search yields a full pattern decomposition of the text. -/
theorem searchPrice_some_pattern :
    ∀ (cs : List Char) m, searchPrice cs = some m → hasPricePattern cs := by
  intro cs
  induction cs with
  | nil => intro m h; cases h
  | cons c cs' ih =>
    intro m h
    rw [searchPrice] at h
    rcases hm : matchAt (c :: cs') with _ | m'
    · rw [hm] at h
      obtain ⟨pre, run, d1, d2, post, hdec, hne, hrun, h1, h2⟩ := ih m h
      refine ⟨c :: pre, run, d1, d2, post, ?_, hne, hrun, h1, h2⟩
      rw [hdec]
      simp
    · rw [hm] at h
      obtain ⟨run, d1, d2⟩ := m'
      obtain ⟨post, hdec, hne, hrun, h1, h2⟩ := matchAt_some_decomp (c :: cs') run d1 d2 hm
      exact ⟨[], run, d1, d2, post, by rw [List.nil_append, hdec], hne, hrun, h1, h2⟩

/-- The search succeeds exactly when the text contains the price pattern. -/
theorem searchPrice_isSome_iff (cs : List Char) :
    (searchPrice cs).isSome = true ↔ hasPricePattern cs := by
  constructor
  · intro h
    rcases ho : searchPrice cs with _ | m
    · rw [ho] at h
      cases h
    · exact searchPrice_some_pattern cs m ho
  · rintro ⟨pre, run, d1, d2, post, hdec, hne, hrun, h1, h2⟩
    subst hdec
    have hm := matchAt_of_pattern run post d1 d2 hne hrun h1 h2
    have hsome : (matchAt (run ++ '.' :: d1 :: d2 :: post)).isSome = true := by
      rw [hm]
      rfl
    have hsne : run ++ '.' :: d1 :: d2 :: post ≠ [] := by
      cases run with
      | nil => exact absurd rfl hne
      | cons a as => simp
    rw [List.append_assoc]
    exact searchPrice_isSome_of_suffix pre _ hsne hsome

/-- C7: extract_price is total (the embedding returns, never raises); a
missing element yields the absent marker; "$12,345.67" yields the decimal
12345.67 with the thousands separator stripped; "Free shipping" yields the
absent marker; and in general a present element yields a value exactly when
its stripped text contains the digits-commas-dot-two-digits pattern,
otherwise the absent marker (never zero). -/
theorem extract_price_spec :
    extract_price none = none ∧
    extract_price (some "$12,345.67") = some (12345.67 : ℚ) ∧
    extract_price (some "Free shipping") = none ∧
    (∀ s : String, (extract_price (some s)).isSome = true ↔ hasPricePattern (pyStrip s).data) := by
  refine ⟨rfl, ?_, by decide, ?_⟩
  · have h := extract_price_eval "$12,345.67" ['1', '2', ',', '3', '4', '5'] '6' '7' 1234567
      (by decide) (by decide)
    rw [h]
    norm_num
  · intro s
    have hmap : ((searchPrice (pyStrip s).data).map matchValue).isSome =
        (searchPrice (pyStrip s).data).isSome := by
      rcases searchPrice (pyStrip s).data with _ | m <;> rfl
    show ((searchPrice (pyStrip s).data).map matchValue).isSome = true ↔ _
    rw [hmap]
    exact searchPrice_isSome_iff _

/-- C10: on a price range text the leftmost decimal pattern wins:
"$10.00 to $20.00" yields 10.00, which is neither the last pattern (20.00)
nor the average (15.00). -/
theorem extract_price_leftmost :
    extract_price (some "$10.00 to $20.00") = some (10.00 : ℚ) ∧
    (10.00 : ℚ) ≠ (20.00 : ℚ) ∧ (10.00 : ℚ) ≠ (15.00 : ℚ) := by
  refine ⟨?_, by norm_num, by norm_num⟩
  have h := extract_price_eval "$10.00 to $20.00" ['1', '0'] '0' '0' 1000
    (by decide) (by decide)
  rw [h]
  norm_num

/-- Updating a counter key leaves the key order unchanged when present,
appends the key at the end when absent. -/
theorem bump_keys (acc : List (String × ℕ)) (t : String) :
    (bump acc t).map Prod.fst =
      if t ∈ acc.map Prod.fst then acc.map Prod.fst else acc.map Prod.fst ++ [t] := by
  induction acc with
  | nil => simp [bump]
  | cons p rest ih =>
    obtain ⟨k, c⟩ := p
    by_cases hk : k = t
    · subst hk
      simp [bump]
    · have hb : bump ((k, c) :: rest) t = (k, c) :: bump rest t := by
        simp [bump, hk]
      rw [hb]
      by_cases hm : t ∈ rest.map Prod.fst
      · simp only [List.map_cons, ih, if_pos hm]
        rw [if_pos (List.mem_cons_of_mem k hm)]
      · simp only [List.map_cons, ih, if_neg hm]
        rw [if_neg ?_]
        · simp
        · intro hmem
          rcases List.mem_cons.mp hmem with h1 | h2
          · exact hk h1.symm
          · exact hm h2

/-- Updating a counter key adds one to the stored count of exactly that key. -/
theorem getCnt_bump (acc : List (String × ℕ)) (t k : String) :
    getCnt (bump acc t) k = getCnt acc k + (if k = t then 1 else 0) := by
  induction acc with
  | nil =>
    by_cases h : k = t
    · subst h
      simp [bump, getCnt]
    · have ht : t ≠ k := fun e => h e.symm
      simp [bump, getCnt, ht, h]
  | cons p rest ih =>
    obtain ⟨k0, c0⟩ := p
    by_cases h0 : k0 = t
    · subst h0
      have hb : bump ((k0, c0) :: rest) k0 = (k0, c0 + 1) :: rest := by
        simp [bump]
      rw [hb]
      by_cases hk : k0 = k
      · subst hk
        simp [getCnt]
      · have hk' : ¬ k = k0 := fun e => hk e.symm
        simp [getCnt, hk, hk']
    · have hb : bump ((k0, c0) :: rest) t = (k0, c0) :: bump rest t := by
        simp [bump, h0]
      rw [hb]
      by_cases hk : k0 = k
      · subst hk
        simp [getCnt, h0]
      · simp [getCnt, hk, ih]

/-- Updating a counter preserves distinctness of its keys. -/
theorem bump_keys_nodup (acc : List (String × ℕ)) (t : String)
    (h : (acc.map Prod.fst).Nodup) : ((bump acc t).map Prod.fst).Nodup := by
  rw [bump_keys]
  by_cases hm : t ∈ acc.map Prod.fst
  · rw [if_pos hm]
    exact h
  · rw [if_neg hm]
    simp [List.nodup_append, h, hm]

/-- With distinct keys, the stored count of a member is its pair value. -/
theorem getCnt_of_mem (acc : List (String × ℕ)) (p : String × ℕ)
    (hnd : (acc.map Prod.fst).Nodup) (hp : p ∈ acc) : getCnt acc p.1 = p.2 := by
  induction acc with
  | nil => cases hp
  | cons q rest ih =>
    obtain ⟨k, c⟩ := q
    rcases List.mem_cons.mp hp with rfl | hmem
    · simp [getCnt]
    · have hk : ¬ k = p.1 := by
        intro hkp
        have hmem' : p.1 ∈ rest.map Prod.fst := List.mem_map_of_mem Prod.fst hmem
        rw [← hkp] at hmem'
        exact (List.nodup_cons.mp (by simpa using hnd)).1 hmem'
      simp only [getCnt, if_neg hk]
      exact ih (List.nodup_cons.mp (by simpa using hnd)).2 hmem

/-- The keys of the counter are the old keys followed by the tokens not yet
seen, in first-appearance order. -/
theorem counterGo_keys (ts : List String) :
    ∀ acc : List (String × ℕ),
    (counterGo acc ts).map Prod.fst = acc.map Prod.fst ++ seenGo (acc.map Prod.fst) ts := by
  induction ts with
  | nil => intro acc; simp [counterGo, seenGo]
  | cons t ts' ih =>
    intro acc
    show (counterGo (bump acc t) ts').map Prod.fst = _
    rw [ih (bump acc t), bump_keys]
    by_cases hm : t ∈ acc.map Prod.fst
    · rw [if_pos hm]
      simp [seenGo, hm]
    · rw [if_neg hm]
      simp [seenGo, hm]

/-- The counter stores, for every entry it produces, the previously stored
count plus the occurrence count in the processed tokens. -/
theorem counterGo_counts (ts : List String) :
    ∀ acc : List (String × ℕ), (acc.map Prod.fst).Nodup →
    ∀ p ∈ counterGo acc ts, p.2 = getCnt acc p.1 + cnt p.1 ts := by
  induction ts with
  | nil =>
    intro acc hnd p hp
    simp [cnt, getCnt_of_mem acc p hnd hp]
  | cons t ts' ih =>
    intro acc hnd p hp
    have h := ih (bump acc t) (bump_keys_nodup acc t hnd) p hp
    rw [h, getCnt_bump]
    show getCnt acc p.1 + (if p.1 = t then 1 else 0) + cnt p.1 ts' =
      getCnt acc p.1 + ((if t = p.1 then 1 else 0) + cnt p.1 ts')
    by_cases hpt : p.1 = t
    · simp [hpt]
      omega
    · have htp : ¬ t = p.1 := fun e => hpt e.symm
      simp [hpt, htp]

/-- Inserting an entry into a filtered view: entries of the same count gain
the new entry at the front exactly when it carries that count; entries of
other counts are untouched and keep their order. -/
theorem orderedInsert_filter_count (x : String × ℕ) (l : List (String × ℕ)) (c : ℕ) :
    (List.orderedInsert countGE x l).filter (fun p => p.2 == c) =
      (if x.2 == c then x :: l.filter (fun p => p.2 == c)
       else l.filter (fun p => p.2 == c)) := by
  induction l with
  | nil =>
    by_cases hx : (x.2 == c) = true
    · simp [List.orderedInsert, List.filter, hx]
    · simp [List.orderedInsert, List.filter, hx]
  | cons b bs ih =>
    rw [List.orderedInsert]
    by_cases hr : countGE x b
    · rw [if_pos hr]
      by_cases hx : (x.2 == c) = true
      · simp [List.filter, hx]
      · simp [List.filter, hx]
    · rw [if_neg hr]
      have hxb : x.2 < b.2 := Nat.lt_of_not_le hr
      by_cases hx : (x.2 == c) = true
      · have hxc : x.2 = c := by simpa using hx
        have hbc : (b.2 == c) = false := beq_eq_false_iff_ne.mpr (by omega)
        simp only [List.filter, hbc, ih, if_pos hx]
      · simp only [List.filter, ih, if_neg hx]

/-- The descending count sort is stable: for every count value, the entries
carrying that count appear in the same order as in the input. -/
theorem sortByCountDesc_filter (l : List (String × ℕ)) (c : ℕ) :
    (sortByCountDesc l).filter (fun p => p.2 == c) = l.filter (fun p => p.2 == c) := by
  induction l with
  | nil => rfl
  | cons x xs ih =>
    show (List.orderedInsert countGE x (List.insertionSort countGE xs)).filter _ = _
    rw [orderedInsert_filter_count]
    simp only [sortByCountDesc] at ih
    by_cases hx : (x.2 == c) = true
    · rw [if_pos hx, ih]
      simp [List.filter, hx]
    · rw [if_neg hx, ih]
      simp [List.filter, hx]

/-- C5: the ranking produced by analyze_keywords is sorted descending by
count; entries with equal counts keep the counter order (stable sort), the
counter keys are the distinct tokens in order of first appearance in the
token sequence, and every entry carries the occurrence count of its token. -/
theorem analyze_keywords_ranking (tok : String → List String) (baseStop : List String)
    (titles : List String) :
    List.Pairwise (fun p q : String × ℕ => q.2 ≤ p.2) (analyze_keywords tok baseStop titles) ∧
    (∀ c : ℕ, (analyze_keywords tok baseStop titles).filter (fun p => p.2 == c) =
      (counterList (preprocess_text tok baseStop (pySpaceJoin titles))).filter
        (fun p => p.2 == c)) ∧
    (counterList (preprocess_text tok baseStop (pySpaceJoin titles))).map Prod.fst =
      seenOrder (preprocess_text tok baseStop (pySpaceJoin titles)) ∧
    (∀ p ∈ analyze_keywords tok baseStop titles,
      p.2 = cnt p.1 (preprocess_text tok baseStop (pySpaceJoin titles))) := by
  refine ⟨?_, ?_, ?_, ?_⟩
  · exact List.sorted_insertionSort countGE
      (counterList (preprocess_text tok baseStop (pySpaceJoin titles)))
  · intro c
    exact sortByCountDesc_filter
      (counterList (preprocess_text tok baseStop (pySpaceJoin titles))) c
  · have h := counterGo_keys (preprocess_text tok baseStop (pySpaceJoin titles)) []
    simpa [counterList, seenOrder] using h
  · intro p hp
    have hperm := List.perm_insertionSort countGE
      (counterList (preprocess_text tok baseStop (pySpaceJoin titles)))
    have hp' : p ∈ counterList (preprocess_text tok baseStop (pySpaceJoin titles)) :=
      hperm.mem_iff.mp hp
    have h := counterGo_counts (preprocess_text tok baseStop (pySpaceJoin titles)) []
      (by simp) p hp'
    simpa [getCnt] using h

/-- Closed witness for analyze_keywords_ranking at a concrete corpus. -/
theorem analyze_keywords_ranking_witness :
    ((("anime", 2) : String × ℕ)).2 =
      cnt "anime" (preprocess_text pySplitWS fallbackCoreStopwords
        (pySpaceJoin ["anime dvd", "anime film"])) :=
  (analyze_keywords_ranking pySplitWS fallbackCoreStopwords
    ["anime dvd", "anime film"]).2.2.2 ("anime", 2) (by decide)

/-- C4: every token kept by preprocess_text is purely alphabetic, longer
than 2 characters, and not in the combined stopword set, which is the union
of the base English list (or the hardcoded fallback) and the fixed domain
list -- for any tokenizer and any base stopword list. -/
theorem preprocess_text_filtered (tok : String → List String) (baseStop : List String)
    (text : String) (token : String) (h : token ∈ preprocess_text tok baseStop text) :
    pyIsAlpha token = true ∧ token.length > 2 ∧ token ∉ baseStop ++ customStopwords := by
  have h' := (List.mem_filter.mp h).2
  simp only [Bool.and_eq_true, decide_eq_true_eq, Bool.not_eq_true'] at h'
  refine ⟨h'.1.1, h'.1.2, ?_⟩
  intro hmem
  have : (baseStop ++ customStopwords).contains token = true :=
    List.elem_eq_true_of_mem hmem
  rw [this] at h'
  exact Bool.noConfusion h'.2

/-- Closed witness for preprocess_text_filtered: the token "anime" survives
the filter on a concrete title with the fallback tokenizer and stopwords. -/
theorem preprocess_text_filtered_witness :
    pyIsAlpha "anime" = true ∧ ("anime" : String).length > 2 ∧
      "anime" ∉ fallbackCoreStopwords ++ customStopwords :=
  preprocess_text_filtered pySplitWS fallbackCoreStopwords
    "Anime DVD, the new collection!" "anime" (by decide)

/-- Folding min over a list yields a member that is a lower bound. -/
theorem foldl_min_spec (xs : List ℚ) :
    ∀ x : ℚ, (xs.foldl min x ∈ x :: xs) ∧ (∀ y ∈ x :: xs, xs.foldl min x ≤ y) := by
  induction xs with
  | nil =>
    intro x
    constructor
    · simp
    · intro y hy
      rw [List.mem_singleton.mp hy]
      simp [List.foldl]
  | cons a as ih =>
    intro x
    constructor
    · have h := (ih (min x a)).1
      show as.foldl min (min x a) ∈ x :: a :: as
      rcases List.mem_cons.mp h with he | hm
      · rcases min_choice x a with hc | hc
        · rw [he, hc]
          exact List.mem_cons_self _ _
        · rw [he, hc]
          exact List.mem_cons_of_mem _ (List.mem_cons_self _ _)
      · exact List.mem_cons_of_mem _ (List.mem_cons_of_mem _ hm)
    · intro y hy
      have hle := (ih (min x a)).2
      have hseed := hle (min x a) (List.mem_cons_self _ _)
      rcases List.mem_cons.mp hy with hyx | hy'
      · rw [hyx]
        exact le_trans hseed (min_le_left x a)
      · rcases List.mem_cons.mp hy' with hya | hy''
        · rw [hya]
          exact le_trans hseed (min_le_right x a)
        · exact hle y (List.mem_cons_of_mem _ hy'')

/-- Folding max over a list yields a member that is an upper bound. -/
theorem foldl_max_spec (xs : List ℚ) :
    ∀ x : ℚ, (xs.foldl max x ∈ x :: xs) ∧ (∀ y ∈ x :: xs, y ≤ xs.foldl max x) := by
  induction xs with
  | nil =>
    intro x
    constructor
    · simp
    · intro y hy
      rw [List.mem_singleton.mp hy]
      simp [List.foldl]
  | cons a as ih =>
    intro x
    constructor
    · have h := (ih (max x a)).1
      show as.foldl max (max x a) ∈ x :: a :: as
      rcases List.mem_cons.mp h with he | hm
      · rcases max_choice x a with hc | hc
        · rw [he, hc]
          exact List.mem_cons_self _ _
        · rw [he, hc]
          exact List.mem_cons_of_mem _ (List.mem_cons_self _ _)
      · exact List.mem_cons_of_mem _ (List.mem_cons_of_mem _ hm)
    · intro y hy
      have hle := (ih (max x a)).2
      have hseed := hle (max x a) (List.mem_cons_self _ _)
      rcases List.mem_cons.mp hy with hyx | hy'
      · rw [hyx]
        exact le_trans (le_max_left x a) hseed
      · rcases List.mem_cons.mp hy' with hya | hy''
        · rw [hya]
          exact le_trans (le_max_right x a) hseed
        · exact hle y (List.mem_cons_of_mem _ hy'')

/-- The two-branch median equals the uniform two-middle-positions formula. -/
theorem pyMedian_middle (l : List ℚ) :
    pyMedian l = ((pySortedAsc l).getD (((pySortedAsc l).length - 1) / 2) 0 +
      (pySortedAsc l).getD ((pySortedAsc l).length / 2) 0) / 2 := by
  rw [pyMedian]
  by_cases hodd : (pySortedAsc l).length % 2 = 1
  · rw [if_pos hodd]
    have h2 : ((pySortedAsc l).length - 1) / 2 = (pySortedAsc l).length / 2 := by omega
    rw [h2]
    ring
  · rw [if_neg hodd]
    have h2 : (pySortedAsc l).length / 2 - 1 = ((pySortedAsc l).length - 1) / 2 := by omega
    rw [h2]

/-- C8: calculate_price_stats returns all zeros exactly on an empty valid
subset, and otherwise the mean, the median (two middle values of a sorted
permutation), the minimum and the maximum of the non-absent prices, each
rounded to 2 fractional digits; in particular on [] and on [10, 20, 30]. -/
theorem calculate_price_stats_spec (prices : List (Option ℚ)) :
    (prices.filterMap id = [] → calculate_price_stats prices = ⟨0, 0, 0, 0⟩) ∧
    (prices.filterMap id ≠ [] →
      ((calculate_price_stats prices).average =
        round2 ((prices.filterMap id).sum / ((prices.filterMap id).length : ℚ)) ∧
       (∃ s : List ℚ, (prices.filterMap id).Perm s ∧ s.Sorted (· ≤ ·) ∧
         (calculate_price_stats prices).median =
           round2 ((s.getD ((s.length - 1) / 2) 0 + s.getD (s.length / 2) 0) / 2)) ∧
       (∃ m, m ∈ prices.filterMap id ∧ (∀ x ∈ prices.filterMap id, m ≤ x) ∧
         (calculate_price_stats prices).min = round2 m) ∧
       (∃ M, M ∈ prices.filterMap id ∧ (∀ x ∈ prices.filterMap id, x ≤ M) ∧
         (calculate_price_stats prices).max = round2 M))) ∧
    calculate_price_stats ([] : List (Option ℚ)) = ⟨0, 0, 0, 0⟩ ∧
    calculate_price_stats ([some 10, some 20, some 30] : List (Option ℚ)) = ⟨20, 20, 10, 30⟩ := by
  refine ⟨?_, ?_, ?_, ?_⟩
  · intro he
    simp [calculate_price_stats, he]
  · intro hne
    have hie : (prices.filterMap id).isEmpty = false := by
      rcases hl : prices.filterMap id with _ | ⟨x, xs⟩
      · exact absurd hl hne
      · rfl
    have hcp : calculate_price_stats prices =
        ⟨round2 (pyMean (prices.filterMap id)), round2 (pyMedian (prices.filterMap id)),
         round2 (pyMinList (prices.filterMap id)), round2 (pyMaxList (prices.filterMap id))⟩ := by
      simp [calculate_price_stats, hie]
    refine ⟨?_, ?_, ?_, ?_⟩
    · rw [hcp]
      rfl
    · refine ⟨pySortedAsc (prices.filterMap id),
        (List.perm_insertionSort (fun a b => a ≤ b) (prices.filterMap id)).symm,
        List.sorted_insertionSort (fun a b => a ≤ b) (prices.filterMap id), ?_⟩
      rw [hcp, pyMedian_middle]
    · rcases hl : prices.filterMap id with _ | ⟨x, xs⟩
      · exact absurd hl hne
      · have hspec := foldl_min_spec xs x
        refine ⟨xs.foldl min x, hspec.1, hspec.2, ?_⟩
        rw [hcp, hl]
        rfl
    · rcases hl : prices.filterMap id with _ | ⟨x, xs⟩
      · exact absurd hl hne
      · have hspec := foldl_max_spec xs x
        refine ⟨xs.foldl max x, hspec.1, hspec.2, ?_⟩
        rw [hcp, hl]
        rfl
  · rfl
  · have hv : ([some 10, some 20, some 30] : List (Option ℚ)).filterMap id = [10, 20, 30] := rfl
    have hcp : calculate_price_stats ([some 10, some 20, some 30] : List (Option ℚ)) =
        ⟨round2 (pyMean [10, 20, 30]), round2 (pyMedian [10, 20, 30]),
         round2 (pyMinList [10, 20, 30]), round2 (pyMaxList [10, 20, 30])⟩ := by
      simp [calculate_price_stats, hv]
    have hmean : pyMean ([10, 20, 30] : List ℚ) = 20 := by
      norm_num [pyMean]
    have hsort : pySortedAsc [10, 20, 30] = [10, 20, 30] := by
      norm_num [pySortedAsc, List.insertionSort, List.orderedInsert]
    have hmed : pyMedian ([10, 20, 30] : List ℚ) = 20 := by
      simp [pyMedian, hsort]
    have hmin : pyMinList ([10, 20, 30] : List ℚ) = 10 := by
      norm_num [pyMinList, min_def]
    have hmax : pyMaxList ([10, 20, 30] : List ℚ) = 30 := by
      norm_num [pyMaxList, max_def]
    have r10 : round2 (10 : ℚ) = 10 := by
      rw [round2_eval 10 1000 (by norm_num)]
      norm_num
    have r20 : round2 (20 : ℚ) = 20 := by
      rw [round2_eval 20 2000 (by norm_num)]
      norm_num
    have r30 : round2 (30 : ℚ) = 30 := by
      rw [round2_eval 30 3000 (by norm_num)]
      norm_num
    rw [hcp, hmean, hmed, hmin, hmax, r10, r20, r30]

/-- Closed witness for calculate_price_stats_spec on the two example lists. -/
theorem calculate_price_stats_spec_witness :
    calculate_price_stats ([] : List (Option ℚ)) = ⟨0, 0, 0, 0⟩ ∧
    (∃ m, m ∈ ([some 10, some 20, some 30] : List (Option ℚ)).filterMap id ∧
      (∀ x ∈ ([some 10, some 20, some 30] : List (Option ℚ)).filterMap id, m ≤ x) ∧
      (calculate_price_stats ([some 10, some 20, some 30] : List (Option ℚ))).min = round2 m) :=
  ⟨(calculate_price_stats_spec []).1 rfl,
   ((calculate_price_stats_spec [some 10, some 20, some 30]).2.1 (by simp)).2.2.1⟩
